import Mathlib

/-!
# Verification of the Life core (`src/main.rs`)

Shallow embedding of the `Board` data model, its accessors, `clear`,
`randomise`, `count_neighbours` and `next_generation` from the Rust source.

Modelling conventions:
* Rust panics (out-of-bounds accessor calls, slice-index panics, and
  `gen_range` on an empty range) are modelled by `Option`: a panicking
  execution is `none`.  Since the embedding is pure, a failing call returns
  `none` and the input board value is untouched.
* `rand::thread_rng().gen_range(lo..=hi)` is modelled by `genRange lo hi r`
  applied to an arbitrary raw draw `r : Nat` supplied by a stream
  `raw : Nat → Nat`; `genRange` reduces the raw draw into the inclusive
  range, which captures exactly the contract that the sampled value lies in
  `[lo, hi]`.  Likewise `gen_range(0..n)` is modelled by `r % n` (with
  `none` when `n = 0`, where Rust panics).
* `usize` indices and the `i32` neighbour counter are modelled as `Nat`
  (the counter is only ever incremented, so no overflow or sign issues
  arise for the board sizes quantified over).
-/

/-- The `Board` struct from the source: row-major grid of alive flags plus
per-cell colour (intensity) bytes. -/
structure Board where
  rows : Nat
  cols : Nat
  data : List Bool
  colours : List Nat
deriving Repr, DecidableEq

/-- Representation invariant from the data model: both sequences have
exactly `cols * rows` elements (spec §3; established by `Board::new` and
preserved by every operation). -/
def Board.WF (b : Board) : Prop :=
  b.data.length = b.cols * b.rows ∧ b.colours.length = b.cols * b.rows

instance (b : Board) : Decidable b.WF := by
  unfold Board.WF; infer_instance

/-- Model of `rng.gen_range(lo..=hi)`: an arbitrary raw draw reduced into
the inclusive range `[lo, hi]`. -/
def genRange (lo hi r : Nat) : Nat := lo + r % (hi + 1 - lo)

/-- `Board::new`: `data` all `false`, each colour drawn from `128..=255`. -/
def Board.new (col row : Nat) (raw : Nat → Nat) : Board :=
  { rows := row
    cols := col
    data := List.replicate (col * row) false
    colours := (List.range (col * row)).map (fun i => genRange 128 255 (raw i)) }

/-- `Board::get`: panics (`none`) when `row >= rows || col >= cols`,
otherwise reads `data[row * cols + col]` (index panic also `none`). -/
def Board.get (b : Board) (col row : Nat) : Option Bool :=
  if b.rows ≤ row ∨ b.cols ≤ col then none
  else b.data[row * b.cols + col]?

/-- `Board::set`: same bounds contract, writes `data[row * cols + col]`. -/
def Board.set (b : Board) (col row : Nat) (value : Bool) : Option Board :=
  if b.rows ≤ row ∨ b.cols ≤ col then none
  else if row * b.cols + col < b.data.length then
    some { b with data := b.data.set (row * b.cols + col) value }
  else none

/-- `Board::get_colour` (the spec's `get_intensity`). -/
def Board.get_colour (b : Board) (col row : Nat) : Option Nat :=
  if b.rows ≤ row ∨ b.cols ≤ col then none
  else b.colours[row * b.cols + col]?

/-- `Board::set_colour` (the spec's `set_intensity`). -/
def Board.set_colour (b : Board) (col row : Nat) (value : Nat) : Option Board :=
  if b.rows ≤ row ∨ b.cols ≤ col then none
  else if row * b.cols + col < b.colours.length then
    some { b with colours := b.colours.set (row * b.cols + col) value }
  else none

/-- `Board::clear`: every alive flag set to `false`; colours untouched. -/
def Board.clear (b : Board) : Board :=
  { b with data := b.data.map (fun _ => false) }

/-- One iteration of the `randomise` loop body:
`self.data[rng.gen_range(0..self.cols * self.rows)] = true`.
`gen_range` on an empty range panics (`none`). -/
def Board.drawOne (b : Board) (r : Nat) : Option Board :=
  if b.cols * b.rows = 0 then none
  else if r % (b.cols * b.rows) < b.data.length then
    some { b with data := b.data.set (r % (b.cols * b.rows)) true }
  else none

/-- `Board::randomise`: `count` draws, iteration `i` consuming raw draw
`raw i`, in order `0, 1, …, count - 1`. -/
def Board.randomise (b : Board) (count : Nat) (raw : Nat → Nat) : Option Board :=
  match count with
  | 0 => some b
  | Nat.succ k => (b.randomise k raw).bind (fun b' => b'.drawOne (raw k))

/-- The list `[lo, lo+1, …, hi]` of a Rust inclusive range `lo..=hi`
(empty when `hi + 1 ≤ lo`). -/
def rangeIncl (lo hi : Nat) : List Nat :=
  (List.range (hi + 1 - lo)).map (fun i => lo + i)

/-- `count_neighbours`: iterates the clamped 3×3 block in row-major order,
skipping the centre, counting cells for which `board.get` is `true`. -/
def count_neighbours (b : Board) (col row : Nat) : Option Nat :=
  let min_col := if 0 < col then col - 1 else 0
  let max_col := if col < b.cols - 1 then col + 1 else b.cols - 1
  let min_row := if 0 < row then row - 1 else 0
  let max_row := if row < b.rows - 1 then row + 1 else b.rows - 1
  (rangeIncl min_row max_row).foldlM
    (fun count r =>
      (rangeIncl min_col max_col).foldlM
        (fun count c =>
          if c = col ∧ r = row then some count
          else (b.get c r).map (fun v => if v then count + 1 else count))
        count)
    0

/-- The body of the `next_generation` double loop at cell `(col, row)`:
copy the colour, then apply the life rule from the old board `b` to the
new board `nb`. -/
def genStep (b : Board) (row : Nat) (nb : Board) (col : Nat) : Option Board := do
  let colour ← b.get_colour col row
  let nb ← nb.set_colour col row colour
  let c ← count_neighbours b col row
  let old ← b.get col row
  if old then
    if c = 2 ∨ c = 3 then nb.set col row true
    else nb.set col row false
  else
    if c = 3 then nb.set col row true
    else some nb

/-- `next_generation`: builds a fresh `Board::new(cols, rows)` (consuming
raw colour draws) and fills it cell by cell from the old board, then
replaces the old board with it. -/
def next_generation (b : Board) (raw : Nat → Nat) : Option Board :=
  (List.range b.rows).foldlM
    (fun nb row => (List.range b.cols).foldlM (genStep b row) nb)
    (Board.new b.cols b.rows raw)

/-! ## Pure views and offset arithmetic -/

/-- Pure view of a cell's alive flag (row-major offset, default `false`). -/
def aliveAt (b : Board) (c r : Nat) : Bool := b.data.getD (r * b.cols + c) false

/-- Pure view of a cell's colour (row-major offset, default `0`). -/
def colourAt (b : Board) (c r : Nat) : Nat := b.colours.getD (r * b.cols + c) 0

theorem offset_lt {cols rows col row : Nat} (hc : col < cols) (hr : row < rows) :
    row * cols + col < cols * rows := by
  have h1 : row * cols + col < (row + 1) * cols := by
    rw [Nat.succ_mul]
    exact Nat.add_lt_add_left hc _
  have h2 : (row + 1) * cols ≤ rows * cols := Nat.mul_le_mul_right _ hr
  rw [Nat.mul_comm cols rows]
  exact Nat.lt_of_lt_of_le h1 h2

theorem offset_inj {cols col1 row1 col2 row2 : Nat} (h1 : col1 < cols) (h2 : col2 < cols) :
    row1 * cols + col1 = row2 * cols + col2 ↔ (col1 = col2 ∧ row1 = row2) := by
  constructor
  · intro h
    have hcols : 0 < cols := by omega
    have e1 : (col1 + row1 * cols) % cols = col1 := by
      rw [Nat.add_mul_mod_self_right]; exact Nat.mod_eq_of_lt h1
    have e2 : (col2 + row2 * cols) % cols = col2 := by
      rw [Nat.add_mul_mod_self_right]; exact Nat.mod_eq_of_lt h2
    have d1 : (col1 + row1 * cols) / cols = row1 := by
      rw [Nat.add_mul_div_right _ _ hcols, Nat.div_eq_of_lt h1, Nat.zero_add]
    have d2 : (col2 + row2 * cols) / cols = row2 := by
      rw [Nat.add_mul_div_right _ _ hcols, Nat.div_eq_of_lt h2, Nat.zero_add]
    have h' : col1 + row1 * cols = col2 + row2 * cols := by omega
    exact ⟨by rw [← e1, ← e2, h'], by rw [← d1, ← d2, h']⟩
  · rintro ⟨rfl, rfl⟩; rfl

/-! ## Characterizations of the accessors on well-formed boards -/

theorem Board.get_eq_aliveAt {b : Board} (hwf : b.WF) {col row : Nat}
    (hc : col < b.cols) (hr : row < b.rows) :
    b.get col row = some (aliveAt b col row) := by
  have hlt : row * b.cols + col < b.data.length := by
    rw [hwf.1]; exact offset_lt hc hr
  unfold Board.get aliveAt
  rw [if_neg (by omega)]
  simp [List.getD_eq_getElem?_getD, List.getElem?_eq_getElem hlt]

theorem Board.get_colour_eq {b : Board} (hwf : b.WF) {col row : Nat}
    (hc : col < b.cols) (hr : row < b.rows) :
    b.get_colour col row = some (colourAt b col row) := by
  have hlt : row * b.cols + col < b.colours.length := by
    rw [hwf.2]; exact offset_lt hc hr
  unfold Board.get_colour colourAt
  rw [if_neg (by omega)]
  simp [List.getD_eq_getElem?_getD, List.getElem?_eq_getElem hlt]

theorem Board.set_eq {b : Board} (hwf : b.WF) {col row : Nat}
    (hc : col < b.cols) (hr : row < b.rows) (v : Bool) :
    b.set col row v = some { b with data := b.data.set (row * b.cols + col) v } := by
  have hlt : row * b.cols + col < b.data.length := by
    rw [hwf.1]; exact offset_lt hc hr
  unfold Board.set
  rw [if_neg (by omega), if_pos hlt]

theorem Board.set_colour_eq {b : Board} (hwf : b.WF) {col row : Nat}
    (hc : col < b.cols) (hr : row < b.rows) (u : Nat) :
    b.set_colour col row u = some { b with colours := b.colours.set (row * b.cols + col) u } := by
  have hlt : row * b.cols + col < b.colours.length := by
    rw [hwf.2]; exact offset_lt hc hr
  unfold Board.set_colour
  rw [if_neg (by omega), if_pos hlt]

theorem WF_set_data {b : Board} (hwf : b.WF) (i : Nat) (v : Bool) :
    ({ b with data := b.data.set i v } : Board).WF :=
  ⟨by simpa using hwf.1, hwf.2⟩

theorem WF_set_colours {b : Board} (hwf : b.WF) (i : Nat) (u : Nat) :
    ({ b with colours := b.colours.set i u } : Board).WF :=
  ⟨hwf.1, by simpa using hwf.2⟩

theorem Board.new_WF (col row : Nat) (raw : Nat → Nat) : (Board.new col row raw).WF :=
  ⟨by simp [Board.new], by simp [Board.new]⟩

/-! ## Effect of writes on the pure views -/

theorem aliveAt_set {b : Board} (hwf : b.WF) {col row : Nat}
    (hc : col < b.cols) (hr : row < b.rows) (v : Bool) {qc qr : Nat}
    (hqc : qc < b.cols) (hqr : qr < b.rows) :
    aliveAt { b with data := b.data.set (row * b.cols + col) v } qc qr =
      if qc = col ∧ qr = row then v else aliveAt b qc qr := by
  unfold aliveAt
  by_cases h : qc = col ∧ qr = row
  · obtain ⟨rfl, rfl⟩ := h
    have hlt : qr * b.cols + qc < b.data.length := by rw [hwf.1]; exact offset_lt hqc hqr
    simp [List.getD_eq_getElem?_getD, List.getElem?_set_self hlt]
  · rw [if_neg h]
    have hne : row * b.cols + col ≠ qr * b.cols + qc := by
      intro he
      obtain ⟨e1, e2⟩ := (offset_inj hc hqc).mp he
      exact h ⟨e1.symm, e2.symm⟩
    simp [List.getD_eq_getElem?_getD, List.getElem?_set_ne hne]

theorem colourAt_set_colour {b : Board} (hwf : b.WF) {col row : Nat}
    (hc : col < b.cols) (hr : row < b.rows) (u : Nat) {qc qr : Nat}
    (hqc : qc < b.cols) (hqr : qr < b.rows) :
    colourAt { b with colours := b.colours.set (row * b.cols + col) u } qc qr =
      if qc = col ∧ qr = row then u else colourAt b qc qr := by
  unfold colourAt
  by_cases h : qc = col ∧ qr = row
  · obtain ⟨rfl, rfl⟩ := h
    have hlt : qr * b.cols + qc < b.colours.length := by rw [hwf.2]; exact offset_lt hqc hqr
    simp [List.getD_eq_getElem?_getD, List.getElem?_set_self hlt]
  · rw [if_neg h]
    have hne : row * b.cols + col ≠ qr * b.cols + qc := by
      intro he
      obtain ⟨e1, e2⟩ := (offset_inj hc hqc).mp he
      exact h ⟨e1.symm, e2.symm⟩
    simp [List.getD_eq_getElem?_getD, List.getElem?_set_ne hne]

/-! ## Test boards used to instantiate the theorems -/

/-- A concrete well-formed 3×3 board: cells (0,0), (1,0), (1,1) alive. -/
def bT : Board :=
  ⟨3, 3, [true, true, false, false, true, false, false, false, false],
   [200, 201, 202, 203, 204, 205, 206, 207, 208]⟩

/-- A concrete well-formed 2×2 board with cell (0,0) alive. -/
def bR : Board := ⟨2, 2, [true, false, false, false], [130, 131, 132, 133]⟩

/-! ## C4 – C9: accessor contracts, constructor, clear, frame conditions -/

/-- **C4**: each of `get`, `set`, `get_colour` (`get_intensity`) and
`set_colour` (`set_intensity`) fails (panics, modelled as `none`) iff
`col ≥ cols ∨ row ≥ rows`; in bounds none of them fails.  In the pure
embedding a failing call returns `none` and the input board is untouched,
so the board state is unchanged on failure. -/
theorem accessors_out_of_bounds (b : Board) (col row : Nat) (v : Bool) (u : Nat)
    (hwf : b.WF) :
    (b.get col row = none ↔ (b.cols ≤ col ∨ b.rows ≤ row)) ∧
    (b.set col row v = none ↔ (b.cols ≤ col ∨ b.rows ≤ row)) ∧
    (b.get_colour col row = none ↔ (b.cols ≤ col ∨ b.rows ≤ row)) ∧
    (b.set_colour col row u = none ↔ (b.cols ≤ col ∨ b.rows ≤ row)) := by
  by_cases hc : col < b.cols
  · by_cases hr : row < b.rows
    · refine ⟨?_, ?_, ?_, ?_⟩
      · rw [Board.get_eq_aliveAt hwf hc hr]; simp; omega
      · rw [Board.set_eq hwf hc hr]; simp; omega
      · rw [Board.get_colour_eq hwf hc hr]; simp; omega
      · rw [Board.set_colour_eq hwf hc hr]; simp; omega
    · have hb : b.rows ≤ row ∨ b.cols ≤ col := by omega
      refine ⟨?_, ?_, ?_, ?_⟩ <;>
        · simp only [Board.get, Board.set, Board.get_colour, Board.set_colour,
            if_pos hb]
          simp
          omega
  · have hb : b.rows ≤ row ∨ b.cols ≤ col := by omega
    refine ⟨?_, ?_, ?_, ?_⟩ <;>
      · simp only [Board.get, Board.set, Board.get_colour, Board.set_colour,
          if_pos hb]
        simp
        omega

/-- Witness for C4: instantiated at the concrete board `bT`, coordinates
(5, 1). -/
theorem accessors_out_of_bounds_witness :
    (bT.get 5 1 = none ↔ (bT.cols ≤ 5 ∨ bT.rows ≤ 1)) ∧
    (bT.set 5 1 false = none ↔ (bT.cols ≤ 5 ∨ bT.rows ≤ 1)) ∧
    (bT.get_colour 5 1 = none ↔ (bT.cols ≤ 5 ∨ bT.rows ≤ 1)) ∧
    (bT.set_colour 5 1 7 = none ↔ (bT.cols ≤ 5 ∨ bT.rows ≤ 1)) :=
  accessors_out_of_bounds bT 5 1 false 7 (by decide)

/-- **C5**: write/read round trip — after `set col row v`, `get col row`
returns `v`; after `set_colour col row u`, `get_colour col row` returns
`u`. -/
theorem set_get_roundtrip (b : Board) (col row : Nat) (v : Bool) (u : Nat)
    (hwf : b.WF) (hc : col < b.cols) (hr : row < b.rows) :
    (∃ b1, b.set col row v = some b1 ∧ b1.get col row = some v) ∧
    (∃ b2, b.set_colour col row u = some b2 ∧ b2.get_colour col row = some u) := by
  constructor
  · refine ⟨_, Board.set_eq hwf hc hr v, ?_⟩
    rw [Board.get_eq_aliveAt (WF_set_data hwf _ v) hc hr,
      aliveAt_set hwf hc hr v hc hr]
    simp
  · refine ⟨_, Board.set_colour_eq hwf hc hr u, ?_⟩
    rw [Board.get_colour_eq (WF_set_colours hwf _ u) hc hr,
      colourAt_set_colour hwf hc hr u hc hr]
    simp

/-- Witness for C5: instantiated at `bT`, cell (2, 2). -/
theorem set_get_roundtrip_witness :
    (∃ b1, bT.set 2 2 true = some b1 ∧ b1.get 2 2 = some true) ∧
    (∃ b2, bT.set_colour 2 2 99 = some b2 ∧ b2.get_colour 2 2 = some 99) :=
  set_get_roundtrip bT 2 2 true 99 (by decide) (by decide) (by decide)

/-- **C6**: `Board::new cols rows` yields sequences of exactly `cols*rows`
elements, every cell dead, and every colour (intensity) in `[128, 255]`,
for an arbitrary raw randomness stream and before any other call. -/
theorem new_spec (cols rows : Nat) (raw : Nat → Nat) (hc : 0 < cols) (hr : 0 < rows) :
    (Board.new cols rows raw).data.length = cols * rows ∧
    (Board.new cols rows raw).colours.length = cols * rows ∧
    (∀ i, i < cols * rows → (Board.new cols rows raw).data.getD i true = false) ∧
    (∀ i, i < cols * rows →
      128 ≤ (Board.new cols rows raw).colours.getD i 0 ∧
      (Board.new cols rows raw).colours.getD i 0 ≤ 255) := by
  refine ⟨by simp [Board.new], by simp [Board.new], ?_, ?_⟩
  · intro i hi
    simp [Board.new, List.getD_eq_getElem?_getD, List.getElem?_replicate, hi]
  · intro i hi
    have hrange : (List.range (cols * rows))[i]? = some i := List.getElem?_range hi
    have hm : raw i % 128 < 128 := Nat.mod_lt _ (by omega)
    simp [Board.new, List.getD_eq_getElem?_getD, List.getElem?_map, hrange, genRange]
    omega

/-- Witness for C6: instantiated at a 2×3 board with the zero raw stream. -/
theorem new_spec_witness :
    (Board.new 2 3 (fun _ => 0)).data.length = 2 * 3 ∧
    (Board.new 2 3 (fun _ => 0)).colours.length = 2 * 3 ∧
    (∀ i, i < 2 * 3 → (Board.new 2 3 (fun _ => 0)).data.getD i true = false) ∧
    (∀ i, i < 2 * 3 →
      128 ≤ (Board.new 2 3 (fun _ => 0)).colours.getD i 0 ∧
      (Board.new 2 3 (fun _ => 0)).colours.getD i 0 ≤ 255) :=
  new_spec 2 3 (fun _ => 0) (by decide) (by decide)

/-- **C8**: after `clear`, every in-bounds cell reads dead and the colour
(intensity) sequence is exactly what it was before. -/
theorem clear_spec (b : Board) (hwf : b.WF) :
    b.clear.colours = b.colours ∧ b.clear.cols = b.cols ∧ b.clear.rows = b.rows ∧
    ∀ col row, col < b.cols → row < b.rows → b.clear.get col row = some false := by
  refine ⟨rfl, rfl, rfl, ?_⟩
  intro col row hc hr
  have hwf' : b.clear.WF := ⟨by simpa [Board.clear] using hwf.1, hwf.2⟩
  rw [Board.get_eq_aliveAt hwf' hc hr]
  unfold aliveAt Board.clear
  simp only []
  rw [List.getD_eq_getElem?_getD, List.getElem?_map]
  cases b.data[row * b.cols + col]? <;> simp

/-- Witness for C8: instantiated at the concrete board `bT`. -/
theorem clear_spec_witness :
    bT.clear.colours = bT.colours ∧ bT.clear.cols = bT.cols ∧ bT.clear.rows = bT.rows ∧
    ∀ col row, col < bT.cols → row < bT.rows → bT.clear.get col row = some false :=
  clear_spec bT (by decide)

/-- **C9**: frame conditions of the single-cell writes — `set col row v`
touches no colour and no other cell's alive flag; `set_colour col row u`
touches no alive flag and no other cell's colour. -/
theorem set_frame (b : Board) (col row : Nat) (v : Bool) (u : Nat) (hwf : b.WF)
    (hc : col < b.cols) (hr : row < b.rows) :
    (∀ b1, b.set col row v = some b1 →
      b1.cols = b.cols ∧ b1.rows = b.rows ∧ b1.colours = b.colours ∧
      ∀ qc qr, qc < b.cols → qr < b.rows → ¬(qc = col ∧ qr = row) →
        b1.get qc qr = b.get qc qr) ∧
    (∀ b2, b.set_colour col row u = some b2 →
      b2.cols = b.cols ∧ b2.rows = b.rows ∧ b2.data = b.data ∧
      ∀ qc qr, qc < b.cols → qr < b.rows → ¬(qc = col ∧ qr = row) →
        b2.get_colour qc qr = b.get_colour qc qr) := by
  constructor
  · intro b1 h1
    rw [Board.set_eq hwf hc hr] at h1
    obtain rfl := (Option.some.injEq _ _).mp h1.symm
    refine ⟨rfl, rfl, rfl, ?_⟩
    intro qc qr hqc hqr hne
    rw [Board.get_eq_aliveAt (WF_set_data hwf _ v) hqc hqr,
      Board.get_eq_aliveAt hwf hqc hqr,
      aliveAt_set hwf hc hr v hqc hqr, if_neg hne]
  · intro b2 h2
    rw [Board.set_colour_eq hwf hc hr] at h2
    obtain rfl := (Option.some.injEq _ _).mp h2.symm
    refine ⟨rfl, rfl, rfl, ?_⟩
    intro qc qr hqc hqr hne
    rw [Board.get_colour_eq (WF_set_colours hwf _ u) hqc hqr,
      Board.get_colour_eq hwf hqc hqr,
      colourAt_set_colour hwf hc hr u hqc hqr, if_neg hne]

/-- Witness for C9: instantiated at `bT`, writing cell (1, 1). -/
theorem set_frame_witness :
    (∀ b1, bT.set 1 1 false = some b1 →
      b1.cols = bT.cols ∧ b1.rows = bT.rows ∧ b1.colours = bT.colours ∧
      ∀ qc qr, qc < bT.cols → qr < bT.rows → ¬(qc = 1 ∧ qr = 1) →
        b1.get qc qr = bT.get qc qr) ∧
    (∀ b2, bT.set_colour 1 1 99 = some b2 →
      b2.cols = bT.cols ∧ b2.rows = bT.rows ∧ b2.data = bT.data ∧
      ∀ qc qr, qc < bT.cols → qr < bT.rows → ¬(qc = 1 ∧ qr = 1) →
        b2.get_colour qc qr = bT.get_colour qc qr) :=
  set_frame bT 1 1 false 99 (by decide) (by decide) (by decide)

/-! ## C7, C10: randomise -/

theorem drawOne_eq {b : Board} (hwf : b.WF) (hpos : 0 < b.cols * b.rows) (r : Nat) :
    b.drawOne r = some { b with data := b.data.set (r % (b.cols * b.rows)) true } := by
  unfold Board.drawOne
  rw [if_neg (by omega), if_pos (by rw [hwf.1]; exact Nat.mod_lt _ hpos)]

theorem length_foldl_set (l : List Nat) (d : List Bool) (f : Nat → Nat) :
    (l.foldl (fun d i => d.set (f i) true) d).length = d.length := by
  induction l generalizing d with
  | nil => rfl
  | cons a t ih => rw [List.foldl_cons, ih, List.length_set]

theorem count_true_set_le (d : List Bool) (i : Nat) :
    (d.set i true).count true ≤ d.count true + 1 := by
  induction d generalizing i with
  | nil => simp
  | cons a t ih =>
    cases i with
    | zero =>
      simp only [List.set_cons_zero, List.count_cons]
      cases a <;> simp
    | succ j =>
      simp only [List.set_cons_succ, List.count_cons]
      have := ih j
      omega

theorem count_true_foldl_set_le (l : List Nat) (d : List Bool) (f : Nat → Nat) :
    (l.foldl (fun d i => d.set (f i) true) d).count true ≤ d.count true + l.length := by
  induction l generalizing d with
  | nil => simp
  | cons a t ih =>
    rw [List.foldl_cons]
    calc ((t.foldl (fun d i => d.set (f i) true) (d.set (f a) true))).count true
        ≤ (d.set (f a) true).count true + t.length := ih _
      _ ≤ d.count true + 1 + t.length := by
          have := count_true_set_le d (f a)
          omega
      _ = d.count true + (a :: t).length := by simp; omega

theorem randomise_eq (b : Board) (count : Nat) (raw : Nat → Nat)
    (hwf : b.WF) (hpos : 0 < b.cols * b.rows) :
    b.randomise count raw =
      some { b with data :=
        (List.range count).foldl (fun d i => d.set (raw i % (b.cols * b.rows)) true) b.data } := by
  induction count with
  | zero => rfl
  | succ k ih =>
    rw [Board.randomise, ih, Option.some_bind]
    have hwfk : ({ b with data :=
        (List.range k).foldl (fun d i => d.set (raw i % (b.cols * b.rows)) true) b.data } : Board).WF := by
      constructor
      · simpa [length_foldl_set] using hwf.1
      · exact hwf.2
    rw [drawOne_eq hwfk (by simpa using hpos) (raw k)]
    simp only [List.range_succ, List.foldl_append, List.foldl_cons, List.foldl_nil]

/-- **C7**: `randomise count` performs exactly `count` draws in order, each
setting the cell at linear offset `raw i % (cols*rows)` alive (the fold
below), no colour (intensity) is changed, and the number of alive cells
afterwards is at most the number before plus `count`; the second conjunct
exhibits duplicate draws making it strictly smaller than `count`. -/
theorem randomise_spec (b : Board) (count : Nat) (raw : Nat → Nat)
    (hwf : b.WF) (hpos : 0 < b.cols * b.rows) :
    (∃ b1, b.randomise count raw = some b1 ∧ b1.cols = b.cols ∧ b1.rows = b.rows ∧
      b1.colours = b.colours ∧
      b1.data = (List.range count).foldl
        (fun d i => d.set (raw i % (b.cols * b.rows)) true) b.data ∧
      b1.data.count true ≤ b.data.count true + count) ∧
    (∃ b2, (Board.new 2 2 (fun _ => 0)).randomise 2 (fun _ => 0) = some b2 ∧
      b2.data.count true = 1 ∧ 1 < 2) := by
  constructor
  · refine ⟨_, randomise_eq b count raw hwf hpos, rfl, rfl, rfl, rfl, ?_⟩
    have := count_true_foldl_set_le (List.range count) b.data
      (fun i => raw i % (b.cols * b.rows))
    simpa using this
  · exact ⟨⟨2, 2, [true, false, false, false], [128, 128, 128, 128]⟩,
      by decide, by decide, by decide⟩

/-- Witness for C7: instantiated at `bT` with three draws. -/
theorem randomise_spec_witness :
    (∃ b1, bT.randomise 3 (fun n => n) = some b1 ∧ b1.cols = bT.cols ∧ b1.rows = bT.rows ∧
      b1.colours = bT.colours ∧
      b1.data = (List.range 3).foldl
        (fun d i => d.set (i % (bT.cols * bT.rows)) true) bT.data ∧
      b1.data.count true ≤ bT.data.count true + 3) ∧
    (∃ b2, (Board.new 2 2 (fun _ => 0)).randomise 2 (fun _ => 0) = some b2 ∧
      b2.data.count true = 1 ∧ 1 < 2) :=
  randomise_spec bT 3 (fun n => n) (by decide) (by decide)

theorem drawOne_mono {b b1 : Board} {r : Nat} (h : b.drawOne r = some b1)
    {col row : Nat} (hal : b.get col row = some true) :
    b1.get col row = some true := by
  unfold Board.drawOne at h
  by_cases h0 : b.cols * b.rows = 0
  · rw [if_pos h0] at h; exact absurd h (by simp)
  · rw [if_neg h0] at h
    by_cases hlen : r % (b.cols * b.rows) < b.data.length
    · rw [if_pos hlen] at h
      obtain rfl := (Option.some.injEq _ _).mp h.symm
      unfold Board.get at hal ⊢
      by_cases hb : b.rows ≤ row ∨ b.cols ≤ col
      · rw [if_pos hb] at hal; exact absurd hal (by simp)
      · rw [if_neg hb] at hal ⊢
        simp only []
        by_cases he : r % (b.cols * b.rows) = row * b.cols + col
        · rw [← he, List.getElem?_set_self hlen]
        · rw [List.getElem?_set_ne he]
          exact hal
    · rw [if_neg hlen] at h; exact absurd h (by simp)

/-- **C10**: `randomise` never kills a cell — any cell alive before a
successful `randomise count` call is still alive afterwards. -/
theorem randomise_monotone (b : Board) (count : Nat) (raw : Nat → Nat) (b1 : Board)
    (col row : Nat) (h : b.randomise count raw = some b1)
    (hal : b.get col row = some true) : b1.get col row = some true := by
  induction count generalizing b1 with
  | zero =>
    obtain rfl : b = b1 := (Option.some.injEq _ _).mp h
    exact hal
  | succ k ih =>
    rw [Board.randomise] at h
    cases hk : b.randomise k raw with
    | none => rw [hk] at h; exact absurd h (by simp)
    | some bk =>
      rw [hk, Option.some_bind] at h
      exact drawOne_mono h (ih bk hk)

/-- Witness for C10: `bR` has (0,0) alive; after one draw at offset 1 the
cell (0,0) is still alive. -/
theorem randomise_monotone_witness :
    (⟨2, 2, [true, true, false, false], [130, 131, 132, 133]⟩ : Board).get 0 0 = some true :=
  randomise_monotone bR 1 (fun _ => 1)
    ⟨2, 2, [true, true, false, false], [130, 131, 132, 133]⟩ 0 0 (by decide) (by decide)

/-! ## C2: count_neighbours -/

theorem foldlM_option_add {α : Type} (l : List α) (f : Nat → α → Option Nat) (w : α → Nat) :
    (∀ a ∈ l, ∀ acc, f acc a = some (acc + w a)) →
    ∀ init : Nat, l.foldlM f init = some (init + (l.map w).sum) := by
  induction l with
  | nil => intro _ init; simp
  | cons a t ih =>
    intro h init
    rw [List.foldlM_cons, h a (List.mem_cons_self a t) init]
    show t.foldlM f (init + w a) = _
    rw [ih (fun x hx acc => h x (List.mem_cons_of_mem a hx) acc) (init + w a)]
    simp [Nat.add_assoc]

theorem mem_rangeIncl {lo hi x : Nat} : x ∈ rangeIncl lo hi ↔ lo ≤ x ∧ x ≤ hi := by
  simp only [rangeIncl, List.mem_map, List.mem_range]
  constructor
  · rintro ⟨a, ha, rfl⟩; omega
  · rintro ⟨h1, h2⟩; exact ⟨x - lo, by omega, by omega⟩

theorem sum_map_range (n : Nat) (f : Nat → Nat) :
    ((List.range n).map f).sum = ∑ i in Finset.range n, f i := by
  induction n with
  | zero => simp
  | succ k ih => rw [List.range_succ, Finset.sum_range_succ, List.map_append]; simp [ih]

theorem sum_rangeIncl (lo hi : Nat) (f : Nat → Nat) :
    ((rangeIncl lo hi).map f).sum = ∑ x in Finset.Icc lo hi, f x := by
  rw [← Nat.Ico_succ_right, Finset.sum_Ico_eq_sum_range]
  unfold rangeIncl
  rw [List.map_map, sum_map_range]
  rfl

/-- The contribution of candidate cell `(c, r)` to the neighbour count of
`(col, row)`: the centre contributes nothing, any other alive cell one. -/
def nbWeight (b : Board) (col row c r : Nat) : Nat :=
  if c = col ∧ r = row then 0 else if aliveAt b c r then 1 else 0

/-- Pure value of the `count_neighbours` double loop. -/
def countNeighboursPure (b : Board) (col row : Nat) : Nat :=
  ∑ r in Finset.Icc (row - 1) (min (row + 1) (b.rows - 1)),
    ∑ c in Finset.Icc (col - 1) (min (col + 1) (b.cols - 1)),
      nbWeight b col row c r

theorem count_neighbours_unfold (b : Board) (col row : Nat) :
    count_neighbours b col row =
      (rangeIncl (if 0 < row then row - 1 else 0)
          (if row < b.rows - 1 then row + 1 else b.rows - 1)).foldlM
        (fun count r =>
          (rangeIncl (if 0 < col then col - 1 else 0)
              (if col < b.cols - 1 then col + 1 else b.cols - 1)).foldlM
            (fun count c =>
              if c = col ∧ r = row then some count
              else (b.get c r).map (fun v => if v then count + 1 else count))
            count)
        0 := rfl

theorem clampLo_eq (x : Nat) : (if 0 < x then x - 1 else 0) = x - 1 := by
  split <;> omega

theorem clampHi_eq (x n : Nat) : (if x < n - 1 then x + 1 else n - 1) = min (x + 1) (n - 1) := by
  split <;> omega

theorem count_neighbours_eq_pure {b : Board} (hwf : b.WF) {col row : Nat}
    (hc : col < b.cols) (hr : row < b.rows) :
    count_neighbours b col row = some (countNeighboursPure b col row) := by
  rw [count_neighbours_unfold, clampLo_eq, clampLo_eq, clampHi_eq, clampHi_eq]
  have houter : ∀ r ∈ rangeIncl (row - 1) (min (row + 1) (b.rows - 1)), ∀ acc : Nat,
      (rangeIncl (col - 1) (min (col + 1) (b.cols - 1))).foldlM
        (fun count c =>
          if c = col ∧ r = row then some count
          else (b.get c r).map (fun v => if v then count + 1 else count))
        acc
      = some (acc + ((rangeIncl (col - 1) (min (col + 1) (b.cols - 1))).map
          (fun c => nbWeight b col row c r)).sum) := by
    intro r hrmem acc
    apply foldlM_option_add
    intro c hcmem acc'
    have hrb := mem_rangeIncl.mp hrmem
    have hcb := mem_rangeIncl.mp hcmem
    have hc' : c < b.cols := by omega
    have hr' : r < b.rows := by omega
    by_cases hcen : c = col ∧ r = row
    · rw [if_pos hcen]
      unfold nbWeight
      rw [if_pos hcen]
      simp
    · rw [if_neg hcen, Board.get_eq_aliveAt hwf hc' hr']
      unfold nbWeight
      rw [if_neg hcen]
      cases aliveAt b c r <;> simp
  rw [foldlM_option_add _ _
    (fun r => ((rangeIncl (col - 1) (min (col + 1) (b.cols - 1))).map
      (fun c => nbWeight b col row c r)).sum) houter 0]
  rw [sum_rangeIncl]
  unfold countNeighboursPure
  congr 1
  rw [Nat.zero_add]
  apply Finset.sum_congr rfl
  intro r _
  rw [sum_rangeIncl]

/-- The spec's clamped 3×3 block centred at `(col, row)`: columns in
`[col-1, col+1]` clamped to `[0, cols-1]`, rows likewise. -/
def specBlock (b : Board) (col row : Nat) : Finset (Nat × Nat) :=
  Finset.Icc (col - 1) (min (col + 1) (b.cols - 1)) ×ˢ
    Finset.Icc (row - 1) (min (row + 1) (b.rows - 1))

/-- Formalisation of the spec's words: the number of alive cells in the
3×3 block centred at `(col, row)` clamped to the grid, excluding the
centre cell itself. -/
def specNeighbours (b : Board) (col row : Nat) : Nat :=
  ((specBlock b col row).filter
    (fun p => p ≠ (col, row) ∧ aliveAt b p.1 p.2 = true)).card

theorem pure_eq_spec (b : Board) (col row : Nat) :
    countNeighboursPure b col row = specNeighbours b col row := by
  unfold countNeighboursPure specNeighbours specBlock
  rw [Finset.card_filter, Finset.sum_product, Finset.sum_comm]
  apply Finset.sum_congr rfl
  intro c _
  apply Finset.sum_congr rfl
  intro r _
  unfold nbWeight
  by_cases h : c = col ∧ r = row
  · obtain ⟨rfl, rfl⟩ := h
    simp
  · rw [if_neg h]
    have hne : (c, r) ≠ (col, row) := by
      simp only [Ne, Prod.mk.injEq]
      tauto
    cases haa : aliveAt b c r <;> simp [hne, haa]

theorem specNeighbours_le_eight (b : Board) {col row : Nat}
    (hc : col < b.cols) (hr : row < b.rows) :
    specNeighbours b col row ≤ 8 := by
  have hcenter : (col, row) ∈ specBlock b col row := by
    unfold specBlock
    rw [Finset.mem_product, Finset.mem_Icc, Finset.mem_Icc]
    omega
  have hsub : (specBlock b col row).filter
      (fun p => p ≠ (col, row) ∧ aliveAt b p.1 p.2 = true) ⊆
      (specBlock b col row).erase (col, row) := by
    intro p hp
    rw [Finset.mem_filter] at hp
    exact Finset.mem_erase.mpr ⟨hp.2.1, hp.1⟩
  have h1 := Finset.card_le_card hsub
  have h2 := Finset.card_erase_of_mem hcenter
  have h3 : (specBlock b col row).card ≤ 9 := by
    unfold specBlock
    rw [Finset.card_product, Nat.card_Icc, Nat.card_Icc]
    have e1 : min (col + 1) (b.cols - 1) + 1 - (col - 1) ≤ 3 := by omega
    have e2 : min (row + 1) (b.rows - 1) + 1 - (row - 1) ≤ 3 := by omega
    calc (min (col + 1) (b.cols - 1) + 1 - (col - 1)) *
          (min (row + 1) (b.rows - 1) + 1 - (row - 1)) ≤ 3 * 3 :=
        Nat.mul_le_mul e1 e2
      _ = 9 := rfl
  unfold specNeighbours
  omega

theorem specNeighbours_corner_le_three (b : Board) {col row : Nat}
    (hc2 : 2 ≤ b.cols) (hr2 : 2 ≤ b.rows)
    (hcol : col = 0 ∨ col = b.cols - 1) (hrow : row = 0 ∨ row = b.rows - 1) :
    specNeighbours b col row ≤ 3 := by
  have hc : col < b.cols := by omega
  have hr : row < b.rows := by omega
  have hcenter : (col, row) ∈ specBlock b col row := by
    unfold specBlock
    rw [Finset.mem_product, Finset.mem_Icc, Finset.mem_Icc]
    omega
  have hsub : (specBlock b col row).filter
      (fun p => p ≠ (col, row) ∧ aliveAt b p.1 p.2 = true) ⊆
      (specBlock b col row).erase (col, row) := by
    intro p hp
    rw [Finset.mem_filter] at hp
    exact Finset.mem_erase.mpr ⟨hp.2.1, hp.1⟩
  have h1 := Finset.card_le_card hsub
  have h2 := Finset.card_erase_of_mem hcenter
  have h3 : (specBlock b col row).card ≤ 4 := by
    unfold specBlock
    rw [Finset.card_product, Nat.card_Icc, Nat.card_Icc]
    have e1 : min (col + 1) (b.cols - 1) + 1 - (col - 1) ≤ 2 := by omega
    have e2 : min (row + 1) (b.rows - 1) + 1 - (row - 1) ≤ 2 := by omega
    calc (min (col + 1) (b.cols - 1) + 1 - (col - 1)) *
          (min (row + 1) (b.rows - 1) + 1 - (row - 1)) ≤ 2 * 2 :=
        Nat.mul_le_mul e1 e2
      _ = 4 := rfl
  unfold specNeighbours
  omega

/-- **C2**: on a well-formed board with in-bounds `(col, row)`,
`count_neighbours` returns exactly the number of alive cells in the
clamped 3×3 block excluding the centre; that number is at most 8, and at a
corner of a board with `cols ≥ 2` and `rows ≥ 2` at most 3. -/
theorem count_neighbours_spec (b : Board) (col row : Nat) (hwf : b.WF)
    (hc : col < b.cols) (hr : row < b.rows) :
    count_neighbours b col row = some (specNeighbours b col row) ∧
    specNeighbours b col row ≤ 8 ∧
    (2 ≤ b.cols → 2 ≤ b.rows → (col = 0 ∨ col = b.cols - 1) →
      (row = 0 ∨ row = b.rows - 1) → specNeighbours b col row ≤ 3) :=
  ⟨by rw [count_neighbours_eq_pure hwf hc hr, pure_eq_spec],
   specNeighbours_le_eight b hc hr,
   fun h2c h2r hcol hrow => specNeighbours_corner_le_three b h2c h2r hcol hrow⟩

/-- Witness for C2: instantiated at `bT`, corner cell (0, 0), where the
count is 2. -/
theorem count_neighbours_spec_witness :
    count_neighbours bT 0 0 = some (specNeighbours bT 0 0) ∧
    specNeighbours bT 0 0 ≤ 8 ∧
    (2 ≤ bT.cols → 2 ≤ bT.rows → ((0 : Nat) = 0 ∨ (0 : Nat) = bT.cols - 1) →
      ((0 : Nat) = 0 ∨ (0 : Nat) = bT.rows - 1) → specNeighbours bT 0 0 ≤ 3) :=
  count_neighbours_spec bT 0 0 (by decide) (by decide) (by decide)

/-! ## C1, C3: next_generation -/

/-- The life rule applied to cell `(col, row)`, evaluated entirely from the
old board `b`: survival on 2 or 3 neighbours, birth on exactly 3. -/
def newCell (b : Board) (col row : Nat) : Bool :=
  if aliveAt b col row then
    decide (countNeighboursPure b col row = 2 ∨ countNeighboursPure b col row = 3)
  else
    decide (countNeighboursPure b col row = 3)

theorem aliveAt_new (c r : Nat) (raw : Nat → Nat) (qc qr : Nat) :
    aliveAt (Board.new c r raw) qc qr = false := by
  unfold aliveAt Board.new
  simp only [List.getD_eq_getElem?_getD, List.getElem?_replicate]
  split <;> rfl

/-- Effect of one `next_generation` loop iteration at cell `(col, row)`:
it copies the old colour into the new board and writes the rule value of
the cell, provided the cell was still dead in the new board (which holds
throughout the loop since the fresh board starts all-dead). -/
theorem genStep_spec (b : Board) (hwf : b.WF) {row col : Nat}
    (hrow : row < b.rows) (hcol : col < b.cols)
    (nb : Board) (hcols : nb.cols = b.cols) (hrows : nb.rows = b.rows) (hnb : nb.WF)
    (hdead : aliveAt nb col row = false) :
    ∃ nb', genStep b row nb col = some nb' ∧
      nb'.cols = b.cols ∧ nb'.rows = b.rows ∧ nb'.WF ∧
      (∀ qc qr, qc < b.cols → qr < b.rows →
        aliveAt nb' qc qr = (if qc = col ∧ qr = row then newCell b col row
          else aliveAt nb qc qr) ∧
        colourAt nb' qc qr = (if qc = col ∧ qr = row then colourAt b col row
          else colourAt nb qc qr)) := by
  have hcol' : col < nb.cols := by omega
  have hrow' : row < nb.rows := by omega
  unfold genStep
  rw [Board.get_colour_eq hwf hcol hrow]
  simp only [Option.bind_eq_bind, Option.some_bind]
  rw [Board.set_colour_eq hnb hcol' hrow']
  simp only [Option.bind_eq_bind, Option.some_bind]
  rw [count_neighbours_eq_pure hwf hcol hrow]
  simp only [Option.bind_eq_bind, Option.some_bind]
  rw [Board.get_eq_aliveAt hwf hcol hrow]
  simp only [Option.bind_eq_bind, Option.some_bind]
  set nb1 : Board :=
    { nb with colours := nb.colours.set (row * nb.cols + col) (colourAt b col row) }
    with hnb1def
  have hnb1WF : nb1.WF := WF_set_colours hnb _ _
  have hcol1 : col < nb1.cols := hcol'
  have hrow1 : row < nb1.rows := hrow'
  have halive1 : ∀ qc qr, aliveAt nb1 qc qr = aliveAt nb qc qr := fun _ _ => rfl
  have hcolour1 : ∀ qc qr, qc < b.cols → qr < b.rows →
      colourAt nb1 qc qr = (if qc = col ∧ qr = row then colourAt b col row
        else colourAt nb qc qr) := by
    intro qc qr hqc hqr
    exact colourAt_set_colour hnb hcol' hrow' _ (by omega) (by omega)
  have hwrite : ∀ v : Bool, newCell b col row = v →
      ∃ nb', nb1.set col row v = some nb' ∧
        nb'.cols = b.cols ∧ nb'.rows = b.rows ∧ nb'.WF ∧
        (∀ qc qr, qc < b.cols → qr < b.rows →
          aliveAt nb' qc qr = (if qc = col ∧ qr = row then newCell b col row
            else aliveAt nb qc qr) ∧
          colourAt nb' qc qr = (if qc = col ∧ qr = row then colourAt b col row
            else colourAt nb qc qr)) := by
    intro v hv
    refine ⟨_, Board.set_eq hnb1WF hcol1 hrow1 v, ?_, ?_, WF_set_data hnb1WF _ v, ?_⟩
    · show nb.cols = b.cols; exact hcols
    · show nb.rows = b.rows; exact hrows
    · intro qc qr hqc hqr
      have hqc1 : qc < nb1.cols := by show qc < nb.cols; omega
      have hqr1 : qr < nb1.rows := by show qr < nb.rows; omega
      constructor
      · rw [aliveAt_set hnb1WF hcol1 hrow1 v hqc1 hqr1, halive1, hv]
      · show colourAt nb1 qc qr = _
        exact hcolour1 qc qr hqc hqr
  by_cases halive : aliveAt b col row = true
  · rw [if_pos halive]
    by_cases hcnt : countNeighboursPure b col row = 2 ∨ countNeighboursPure b col row = 3
    · rw [if_pos hcnt]
      exact hwrite true (by unfold newCell; rw [if_pos halive]; exact decide_eq_true hcnt)
    · rw [if_neg hcnt]
      exact hwrite false (by unfold newCell; rw [if_pos halive]; exact decide_eq_false hcnt)
  · rw [if_neg halive]
    by_cases hcnt : countNeighboursPure b col row = 3
    · rw [if_pos hcnt]
      exact hwrite true (by
        unfold newCell
        rw [if_neg halive]
        exact decide_eq_true hcnt)
    · rw [if_neg hcnt]
      have hv : newCell b col row = false := by
        unfold newCell
        rw [if_neg halive]
        exact decide_eq_false hcnt
      refine ⟨nb1, rfl, ?_, ?_, hnb1WF, ?_⟩
      · show nb.cols = b.cols; exact hcols
      · show nb.rows = b.rows; exact hrows
      · intro qc qr hqc hqr
        constructor
        · rw [halive1]
          by_cases hq : qc = col ∧ qr = row
          · obtain ⟨rfl, rfl⟩ := hq
            rw [if_pos ⟨rfl, rfl⟩, hv, hdead]
          · rw [if_neg hq]
        · exact hcolour1 qc qr hqc hqr

/-- Invariant of the inner (column) loop of `next_generation` for a fixed
row: after processing columns `0, …, C-1` of row `row`, exactly those
cells carry the rule value and the old colour; everything else is as in
the accumulator board. -/
theorem inner_fold_spec (b : Board) (hwf : b.WF) (row : Nat) (hrow : row < b.rows) :
    ∀ C, C ≤ b.cols → ∀ nb : Board, nb.cols = b.cols → nb.rows = b.rows → nb.WF →
    (∀ qc, qc < b.cols → aliveAt nb qc row = false) →
    ∃ nb', (List.range C).foldlM (genStep b row) nb = some nb' ∧
      nb'.cols = b.cols ∧ nb'.rows = b.rows ∧ nb'.WF ∧
      (∀ qc qr, qc < b.cols → qr < b.rows →
        aliveAt nb' qc qr = (if qr = row ∧ qc < C then newCell b qc qr
          else aliveAt nb qc qr) ∧
        colourAt nb' qc qr = (if qr = row ∧ qc < C then colourAt b qc qr
          else colourAt nb qc qr)) := by
  intro C
  induction C with
  | zero =>
    intro _ nb h1 h2 h3 _
    refine ⟨nb, by simp, h1, h2, h3, ?_⟩
    intro qc qr _ _
    rw [if_neg (by omega), if_neg (by omega)]
    exact ⟨rfl, rfl⟩
  | succ k ih =>
    intro hk nb h1 h2 h3 hdead
    obtain ⟨nbk, hfold, hc1, hc2, hwfk, hcells⟩ := ih (by omega) nb h1 h2 h3 hdead
    have hdeadk : aliveAt nbk k row = false := by
      rw [(hcells k row (by omega) hrow).1, if_neg (by omega)]
      exact hdead k (by omega)
    obtain ⟨nb', hstep, hd1, hd2, hwf', hcell'⟩ :=
      genStep_spec b hwf hrow (by omega) nbk hc1 hc2 hwfk hdeadk
    refine ⟨nb', ?_, hd1, hd2, hwf', ?_⟩
    · rw [List.range_succ, List.foldlM_append, hfold]
      simp only [Option.bind_eq_bind, Option.some_bind, List.foldlM_cons, hstep,
        List.foldlM_nil]
      rfl
    · intro qc qr hqc hqr
      have e := hcell' qc qr hqc hqr
      have f := hcells qc qr hqc hqr
      constructor
      · rw [e.1, f.1]
        by_cases hq : qc = k ∧ qr = row
        · obtain ⟨rfl, rfl⟩ := hq
          rw [if_pos ⟨rfl, rfl⟩, if_pos ⟨rfl, Nat.lt_succ_self _⟩]
        · rw [if_neg hq]
          by_cases hq2 : qr = row ∧ qc < k
          · rw [if_pos hq2, if_pos ⟨hq2.1, by omega⟩]
          · rw [if_neg hq2, if_neg (by omega)]
      · rw [e.2, f.2]
        by_cases hq : qc = k ∧ qr = row
        · obtain ⟨rfl, rfl⟩ := hq
          rw [if_pos ⟨rfl, rfl⟩, if_pos ⟨rfl, Nat.lt_succ_self _⟩]
        · rw [if_neg hq]
          by_cases hq2 : qr = row ∧ qc < k
          · rw [if_pos hq2, if_pos ⟨hq2.1, by omega⟩]
          · rw [if_neg hq2, if_neg (by omega)]

/-- Invariant of the outer (row) loop of `next_generation`: after
processing rows `0, …, R-1`, those rows carry the rule values and the old
colours; the remaining rows are still all-dead with the fresh board's
colours. -/
theorem outer_fold_spec (b : Board) (hwf : b.WF) (raw : Nat → Nat) :
    ∀ R, R ≤ b.rows →
    ∃ nb', (List.range R).foldlM
        (fun nb row => (List.range b.cols).foldlM (genStep b row) nb)
        (Board.new b.cols b.rows raw) = some nb' ∧
      nb'.cols = b.cols ∧ nb'.rows = b.rows ∧ nb'.WF ∧
      (∀ qc qr, qc < b.cols → qr < b.rows →
        aliveAt nb' qc qr = (if qr < R then newCell b qc qr else false) ∧
        colourAt nb' qc qr = (if qr < R then colourAt b qc qr
          else colourAt (Board.new b.cols b.rows raw) qc qr)) := by
  intro R
  induction R with
  | zero =>
    intro _
    refine ⟨Board.new b.cols b.rows raw, by simp, rfl, rfl, Board.new_WF _ _ _, ?_⟩
    intro qc qr _ _
    rw [if_neg (by omega), if_neg (by omega)]
    exact ⟨aliveAt_new _ _ _ _ _, rfl⟩
  | succ R ih =>
    intro hR
    obtain ⟨nbR, hfold, hc1, hc2, hwfR, hcells⟩ := ih (by omega)
    have hdeadR : ∀ qc, qc < b.cols → aliveAt nbR qc R = false := by
      intro qc hqc
      rw [(hcells qc R hqc (by omega)).1, if_neg (by omega)]
    obtain ⟨nb', hstep, hd1, hd2, hwf', hcell'⟩ :=
      inner_fold_spec b hwf R (by omega) b.cols (le_refl _) nbR hc1 hc2 hwfR hdeadR
    refine ⟨nb', ?_, hd1, hd2, hwf', ?_⟩
    · rw [List.range_succ, List.foldlM_append, hfold]
      simp only [Option.bind_eq_bind, Option.some_bind, List.foldlM_cons, hstep,
        List.foldlM_nil]
      rfl
    · intro qc qr hqc hqr
      have e := hcell' qc qr hqc hqr
      have f := hcells qc qr hqc hqr
      constructor
      · rw [e.1, f.1]
        by_cases hq : qr = R
        · subst hq
          rw [if_pos ⟨rfl, hqc⟩, if_pos (Nat.lt_succ_self _)]
        · rw [if_neg (by omega)]
          by_cases hq2 : qr < R
          · rw [if_pos hq2, if_pos (by omega)]
          · rw [if_neg hq2, if_neg (by omega)]
      · rw [e.2, f.2]
        by_cases hq : qr = R
        · subst hq
          rw [if_pos ⟨rfl, hqc⟩, if_pos (Nat.lt_succ_self _)]
        · rw [if_neg (by omega)]
          by_cases hq2 : qr < R
          · rw [if_pos hq2, if_pos (by omega)]
          · rw [if_neg hq2, if_neg (by omega)]

/-- Full characterization of `next_generation` on a well-formed board: it
succeeds, preserves the dimensions, gives every cell the life rule value
computed from the old board, and carries every colour over unchanged. -/
theorem next_generation_eq (b : Board) (hwf : b.WF) (raw : Nat → Nat) :
    ∃ b', next_generation b raw = some b' ∧
      b'.cols = b.cols ∧ b'.rows = b.rows ∧ b'.WF ∧
      ∀ qc qr, qc < b.cols → qr < b.rows →
        aliveAt b' qc qr = newCell b qc qr ∧ colourAt b' qc qr = colourAt b qc qr := by
  obtain ⟨b', h, h1, h2, h3, hcells⟩ := outer_fold_spec b hwf raw b.rows (le_refl _)
  refine ⟨b', h, h1, h2, h3, ?_⟩
  intro qc qr hqc hqr
  have e := hcells qc qr hqc hqr
  rw [if_pos hqr, if_pos hqr] at e
  exact e

/-- **C1**: after `next_generation`, an in-bounds cell is alive iff it was
alive with old-board neighbour count 2 or 3, or dead with count exactly 3,
where both the old state `old` and the count `n` are the values `get` and
`count_neighbours` return on the OLD board — writes to the new board never
feed back into the counts of the same step. -/
theorem next_generation_rule (b : Board) (raw : Nat → Nat) (col row : Nat)
    (old : Bool) (n : Nat) (hwf : b.WF) (hc : col < b.cols) (hr : row < b.rows)
    (hold : b.get col row = some old) (hn : count_neighbours b col row = some n) :
    ∃ b', next_generation b raw = some b' ∧
      b'.get col row = some (if old then decide (n = 2 ∨ n = 3)
        else decide (n = 3)) := by
  rw [Board.get_eq_aliveAt hwf hc hr] at hold
  rw [count_neighbours_eq_pure hwf hc hr] at hn
  obtain rfl : aliveAt b col row = old := (Option.some.injEq _ _).mp hold
  obtain rfl : countNeighboursPure b col row = n := (Option.some.injEq _ _).mp hn
  obtain ⟨b', h, h1, h2, h3, hcells⟩ := next_generation_eq b hwf raw
  refine ⟨b', h, ?_⟩
  rw [Board.get_eq_aliveAt h3 (by omega) (by omega), (hcells col row hc hr).1]
  rfl

/-- Witness for C1: at `bT`, cell (1, 1) is alive with 2 neighbours and
survives. -/
theorem next_generation_rule_witness :
    ∃ b', next_generation bT (fun _ => 0) = some b' ∧
      b'.get 1 1 = some (if true then decide ((2 : Nat) = 2 ∨ (2 : Nat) = 3)
        else decide ((2 : Nat) = 3)) :=
  next_generation_rule bT (fun _ => 0) 1 1 true 2 (by decide) (by decide)
    (by decide) (by decide) (by decide)

/-- **C3**: `next_generation` replaces the board by one of identical
dimensions in which every in-bounds cell's colour (intensity) equals the
old board's colour at the same coordinates, unconditionally. -/
theorem next_generation_frame (b : Board) (raw : Nat → Nat) (hwf : b.WF)
    (hcols : 0 < b.cols) (hrows : 0 < b.rows) :
    ∃ b', next_generation b raw = some b' ∧ b'.cols = b.cols ∧ b'.rows = b.rows ∧
      ∀ col row, col < b.cols → row < b.rows →
        b'.get_colour col row = b.get_colour col row := by
  obtain ⟨b', h, h1, h2, h3, hcells⟩ := next_generation_eq b hwf raw
  refine ⟨b', h, h1, h2, ?_⟩
  intro col row hc hr
  rw [Board.get_colour_eq h3 (by omega) (by omega), Board.get_colour_eq hwf hc hr,
    (hcells col row hc hr).2]

/-- Witness for C3: instantiated at `bT`. -/
theorem next_generation_frame_witness :
    ∃ b', next_generation bT (fun _ => 0) = some b' ∧ b'.cols = bT.cols ∧
      b'.rows = bT.rows ∧
      ∀ col row, col < bT.cols → row < bT.rows →
        b'.get_colour col row = bT.get_colour col row :=
  next_generation_frame bT (fun _ => 0) (by decide) (by decide) (by decide)
